import Mathlib

/-!
Verification of `lab07/genetical_algo.py` (ZEN1X/MIO): chromosome decoding
(binary and Gray) and parent selection (roulette, threshold).

Numeric model: Python/numpy floats are modelled as exact rationals, and a
Python exception as `none` / `Except.error`.  A strategy's random generator
is abstracted as an oracle `draws : ℕ → ℕ` giving, for each position of the
sampled output, the generator's raw choice: an index into `range n` for
`choice(n, size=n, p=probs)`, a position into the sampled array for
`choice(arr, size=n)`.  numpy guarantees those raw choices are in range;
that guarantee appears as a hypothesis where a statement needs it.
-/

namespace GeneticAlgo

/-- Decimal digit list (most significant digit first) of one chromosome
symbol, as produced by Python `str(int(b))` for a non-negative symbol. -/
def symbolDigits (b : ℕ) : List ℕ :=
  if b = 0 then [0] else (Nat.digits 10 b).reverse

/-- `EncodingStyle.turn_to_bits`: `"".join(str(int(b)) for b in chromosome)`,
kept as the list of decimal digit characters of the resulting string. -/
def turn_to_bits (chromosome : List ℕ) : List ℕ :=
  (chromosome.map symbolDigits).flatten

/-- Base-2 value of a digit string, most significant digit first; this is
what Python's `int(bits, 2)` returns on a valid string. -/
def bitsToNat (bits : List ℕ) : ℕ :=
  bits.foldl (fun a d => 2 * a + d) 0

/-- Python `int(bits, 2)`: raises `ValueError` (here: `none`) unless the
string is nonempty and every digit character is 0 or 1. -/
def int_base2 (bits : List ℕ) : Option ℕ :=
  if bits ≠ [] ∧ ∀ d ∈ bits, d = 0 ∨ d = 1 then some (bitsToNat bits) else none

/-- `BinaryEncoding.__init__`: configuration `length`, `x_min`, `x_max`
(source defaults 0.01 and 1.0). -/
structure BinaryEncoding where
  length : ℕ
  x_min : ℚ := 1 / 100
  x_max : ℚ := 1
deriving DecidableEq

/-- `BinaryEncoding.decode`: `num = int(turn_to_bits(chromosome), 2)`, then
`x_min + num / (2**length - 1) * (x_max - x_min)`.  With `length = 0` the
divisor `2**0 - 1` is zero and Python raises `ZeroDivisionError` (after the
`int` parse, which happens first), modelled as `none`. -/
def BinaryEncoding.decode (e : BinaryEncoding) (chromosome : List ℕ) : Option ℚ :=
  match int_base2 (turn_to_bits chromosome) with
  | none => none
  | some num =>
    if e.length = 0 then none
    else some (e.x_min + (num : ℚ) / (2 ^ e.length - 1) * (e.x_max - e.x_min))

/-- `GrayEncoding.__init__`: same configuration as `BinaryEncoding`. -/
structure GrayEncoding where
  length : ℕ
  x_min : ℚ := 1 / 100
  x_max : ℚ := 1
deriving DecidableEq

/-- Loop body of `GrayEncoding.gray_to_binary`: the input list is walked from
the left and each position is XORed with the already converted previous
position (`binary[i] ^= binary[i - 1]` on the mutated array), so `prev` is
the previous OUTPUT bit. -/
def grayScan (prev : ℕ) : List ℕ → List ℕ
  | [] => []
  | g :: gs => (prev ^^^ g) :: grayScan (prev ^^^ g) gs

/-- `GrayEncoding.gray_to_binary`: `binary = gray.copy()`, then for `i` from 1:
`binary[i] ^= binary[i - 1]`; position 0 is kept unchanged. -/
def gray_to_binary : List ℕ → List ℕ
  | [] => []
  | g :: gs => g :: grayScan g gs

/-- `GrayEncoding.decode`: Gray-to-binary conversion followed by the binary
decode formula, with the same `ZeroDivisionError` at `length = 0`. -/
def GrayEncoding.decode (e : GrayEncoding) (chromosome : List ℕ) : Option ℚ :=
  match int_base2 (turn_to_bits (gray_to_binary chromosome)) with
  | none => none
  | some num =>
    if e.length = 0 then none
    else some (e.x_min + (num : ℚ) / (2 ^ e.length - 1) * (e.x_max - e.x_min))

/-- An individual, identified by the heap address of its chromosome cell. -/
structure Individual where
  addr : ℕ
deriving DecidableEq

abbrev Chromosome := List ℕ

/-- Explicit heap of chromosome cells; aliasing is visible as equal
addresses. -/
abbrev Store := List Chromosome

/-- Modelled from the spec: the source's `Individual` class is an empty stub
(`__init__` does only `pass`) and defines no `clone`, although both selection
strategies call `individuals[i].clone()`.  Per the spec, an `Individual`
wraps one chromosome and `clone` produces a deep copy with its own chromosome
storage.  We make the storage explicit: `clone` copies the cell's contents
into a fresh cell appended at the end of the heap. -/
def Individual.clone (ind : Individual) (store : Store) : Individual × Store :=
  (⟨store.length⟩, store ++ [store.getD ind.addr []])

/-- Mutate one bit of the chromosome stored at `addr`. -/
def setBit (store : Store) (addr i v : ℕ) : Store :=
  store.set addr ((store.getD addr []).set i v)

/-- `[individuals[i].clone() for i in idx]`, threading the heap through the
successive clone allocations. -/
def cloneAll (individuals : List Individual) (idx : List ℕ) (store : Store) :
    List Individual × Store :=
  match idx with
  | [] => ([], store)
  | i :: rest =>
    let p := (individuals.getD i ⟨0⟩).clone store
    let q := cloneAll individuals rest p.2
    (p.1 :: q.1, q.2)

/-- `np.min` on a nonempty vector (the empty case raises in numpy and is
modelled as an error branch in `RouletteSelection.select`). -/
def npMin : List ℚ → ℚ
  | [] => 0
  | x :: xs => xs.foldl min x

/-- `vals = fitness - np.min(fitness) + 1e-9`. -/
def rouletteVals (fitness : List ℚ) : List ℚ :=
  fitness.map (fun f => f - npMin fitness + 1 / 1000000000)

/-- `probs = vals / np.sum(vals)`. -/
def rouletteProbs (fitness : List ℚ) : List ℚ :=
  (rouletteVals fitness).map (fun v => v / (rouletteVals fitness).sum)

/-- `RouletteSelection.select`.  `np.min` raises on an empty `fitness`;
`generator.choice(len(individuals), size=len(individuals), p=probs)` raises
when `len(probs) != len(individuals)` (numpy's further checks on `p` — every
entry non-negative and the sum equal to 1 — always pass here, see
`rouletteProbs_pos` and `rouletteProbs_sum`); the drawn indices then index
`individuals`. -/
def RouletteSelection.select (individuals : List Individual) (fitness : List ℚ)
    (draws : ℕ → ℕ) (store : Store) : Except String (List Individual × Store) :=
  if fitness = [] then
    Except.error ("ValueError: zero-size array to reduction operation minimum")
  else if (rouletteProbs fitness).length ≠ individuals.length then
    Except.error ("ValueError: a and p must have same size")
  else
    if ∀ i ∈ (List.range individuals.length).map draws, i < individuals.length then
      Except.ok (cloneAll individuals ((List.range individuals.length).map draws) store)
    else Except.error ("IndexError: list index out of range")

/-- `np.argsort(fitness)`: the indices `0..len-1` sorted by ascending fitness
value.  The source uses numpy's default sort kind, which fixes no order among
equal values; the embedding realises it as an insertion sort, which matters
only for statements that depend on the order of ties. -/
def argsort (fitness : List ℚ) : List ℕ :=
  List.insertionSort (fun i j => fitness.getD i 0 ≤ fitness.getD j 0)
    (List.range fitness.length)

/-- Python's `l[-c:]`: the last `c` elements, the whole list when `c = 0`
(since `l[-0:] = l[0:]`) or when `c` exceeds the length. -/
def pyLastSlice (c : ℕ) (l : List α) : List α :=
  if c = 0 then l else l.drop (l.length - c)

/-- `cutoff = int(np.ceil(self.gamma / 100 * n))`. -/
def thresholdCutoff (gamma : ℚ) (n : ℕ) : ℕ :=
  (Int.ceil (gamma / 100 * (n : ℚ))).toNat

/-- `top_idx = np.argsort(fitness)[-cutoff:]`. -/
def thresholdPool (gamma : ℚ) (n : ℕ) (fitness : List ℚ) : List ℕ :=
  pyLastSlice (thresholdCutoff gamma n) (argsort fitness)

/-- The index list produced by `generator.choice(top_idx, size=n)`: the
oracle picks, for each of the `n` output positions, a position inside
`top_idx`. -/
def ThresholdSelection.chosenIdx (gamma : ℚ) (n : ℕ) (fitness : List ℚ)
    (draws : ℕ → ℕ) : List ℕ :=
  (List.range n).map (fun j => (thresholdPool gamma n fitness).getD (draws j) 0)

/-- `ThresholdSelection.select`.  `generator.choice(top_idx, size=n)` raises
when `top_idx` is empty and at least one sample is requested; the drawn
indices then index `individuals`. -/
def ThresholdSelection.select (gamma : ℚ) (individuals : List Individual)
    (fitness : List ℚ) (draws : ℕ → ℕ) (store : Store) :
    Except String (List Individual × Store) :=
  let n := individuals.length
  if thresholdPool gamma n fitness = [] ∧ n ≠ 0 then
    Except.error ("ValueError: a must be non-empty")
  else
    if ∀ i ∈ ThresholdSelection.chosenIdx gamma n fitness draws,
        i < individuals.length then
      Except.ok (cloneAll individuals
        (ThresholdSelection.chosenIdx gamma n fitness draws) store)
    else Except.error ("IndexError: list index out of range")

/-! ### Encoding lemmas -/

theorem symbolDigits_bit {b : ℕ} (h : b = 0 ∨ b = 1) : symbolDigits b = [b] := by
  rcases h with h | h <;> subst h <;> simp [symbolDigits]

theorem turn_to_bits_of_bits {c : List ℕ} (h : ∀ b ∈ c, b = 0 ∨ b = 1) :
    turn_to_bits c = c := by
  induction c with
  | nil => rfl
  | cons x xs ih =>
    have hx : symbolDigits x = [x] := symbolDigits_bit (h x (List.mem_cons_self x xs))
    have ihx := ih (fun b hb => h b (List.mem_cons_of_mem x hb))
    simp only [turn_to_bits, List.map_cons, List.flatten_cons, hx] at *
    simp [ihx]

theorem foldl_bits_eq (c : List ℕ) :
    ∀ a : ℕ, c.foldl (fun a d => 2 * a + d) a = a * 2 ^ c.length + Nat.ofDigits 2 c.reverse := by
  induction c with
  | nil => intro a; simp [Nat.ofDigits]
  | cons x xs ih =>
    intro a
    simp only [List.foldl_cons, List.length_cons, List.reverse_cons]
    rw [ih (2 * a + x), Nat.ofDigits_append]
    simp [Nat.ofDigits]
    ring

theorem bitsToNat_eq (c : List ℕ) : bitsToNat c = Nat.ofDigits 2 c.reverse := by
  have h := foldl_bits_eq c 0
  simpa [bitsToNat] using h

theorem ofDigits_lt_two_pow {l : List ℕ} (h : ∀ d ∈ l, d = 0 ∨ d = 1) :
    Nat.ofDigits 2 l < 2 ^ l.length := by
  induction l with
  | nil => simp [Nat.ofDigits]
  | cons x xs ih =>
    have hx : x ≤ 1 := by
      rcases h x (List.mem_cons_self x xs) with h0 | h1 <;> omega
    have hxs := ih (fun d hd => h d (List.mem_cons_of_mem x hd))
    have : Nat.ofDigits 2 (x :: xs) = x + 2 * Nat.ofDigits 2 xs := by
      simp [Nat.ofDigits_cons]
    rw [this]
    simp only [List.length_cons, pow_succ]
    omega

theorem bitsToNat_lt {c : List ℕ} (h : ∀ d ∈ c, d = 0 ∨ d = 1) :
    bitsToNat c < 2 ^ c.length := by
  rw [bitsToNat_eq]
  have h2 : Nat.ofDigits 2 c.reverse < 2 ^ c.reverse.length :=
    ofDigits_lt_two_pow (fun d hd => h d (List.mem_reverse.mp hd))
  simpa using h2

theorem int_base2_of_bits {c : List ℕ} (hne : c ≠ []) (h : ∀ d ∈ c, d = 0 ∨ d = 1) :
    int_base2 c = some (bitsToNat c) := by
  simp only [int_base2, if_pos (And.intro hne h)]

theorem grayScan_length (gs : List ℕ) : ∀ p, (grayScan p gs).length = gs.length := by
  induction gs with
  | nil => intro p; rfl
  | cons g gs ih => intro p; simp [grayScan, ih]

theorem gray_to_binary_length (c : List ℕ) : (gray_to_binary c).length = c.length := by
  cases c with
  | nil => rfl
  | cons g gs => simp [gray_to_binary, grayScan_length]

theorem grayScan_bits (gs : List ℕ) :
    ∀ p, p = 0 ∨ p = 1 → (∀ b ∈ gs, b = 0 ∨ b = 1) →
      ∀ b ∈ grayScan p gs, b = 0 ∨ b = 1 := by
  induction gs with
  | nil => intro p _ _ b hb; simp [grayScan] at hb
  | cons g gs ih =>
    intro p hp hgs b hb
    have hg : g = 0 ∨ g = 1 := hgs g (List.mem_cons_self g gs)
    have hxor : p ^^^ g = 0 ∨ p ^^^ g = 1 := by
      rcases hp with h | h <;> rcases hg with h2 | h2 <;> subst h <;> subst h2 <;> simp
    simp only [grayScan, List.mem_cons] at hb
    rcases hb with hb | hb
    · exact hb ▸ hxor
    · exact ih (p ^^^ g) hxor (fun b hb => hgs b (List.mem_cons_of_mem g hb)) b hb

theorem gray_to_binary_bits {c : List ℕ} (h : ∀ b ∈ c, b = 0 ∨ b = 1) :
    ∀ b ∈ gray_to_binary c, b = 0 ∨ b = 1 := by
  cases c with
  | nil => intro b hb; simp [gray_to_binary] at hb
  | cons g gs =>
    intro b hb
    have hg : g = 0 ∨ g = 1 := h g (List.mem_cons_self g gs)
    simp only [gray_to_binary, List.mem_cons] at hb
    rcases hb with hb | hb
    · exact hb ▸ hg
    · exact grayScan_bits gs g hg (fun b hb => h b (List.mem_cons_of_mem g hb)) b hb

theorem grayScan_getD_succ (gs : List ℕ) :
    ∀ p i, i + 1 < gs.length →
      (grayScan p gs).getD (i + 1) 0 = gs.getD (i + 1) 0 ^^^ (grayScan p gs).getD i 0 := by
  induction gs with
  | nil => intro p i h; simp at h
  | cons g gs ih =>
    intro p i h
    cases i with
    | zero =>
      cases gs with
      | nil => simp at h
      | cons g2 gs2 => simp [grayScan, Nat.xor_comm, Nat.xor_assoc]
    | succ j =>
      have hj : j + 1 < gs.length := by simp at h; omega
      simpa [grayScan] using ih (p ^^^ g) j hj

theorem gray_to_binary_getD_zero (c : List ℕ) :
    (gray_to_binary c).getD 0 0 = c.getD 0 0 := by
  cases c with
  | nil => rfl
  | cons g gs => rfl

theorem gray_to_binary_getD_succ {c : List ℕ} {i : ℕ} (h : i + 1 < c.length) :
    (gray_to_binary c).getD (i + 1) 0 =
      c.getD (i + 1) 0 ^^^ (gray_to_binary c).getD i 0 := by
  cases c with
  | nil => simp at h
  | cons g gs =>
    cases i with
    | zero =>
      cases gs with
      | nil => simp at h
      | cons g2 gs2 => simp [gray_to_binary, grayScan, Nat.xor_comm]
    | succ j =>
      have hj : j + 1 < gs.length := by simp at h; omega
      simpa [gray_to_binary] using grayScan_getD_succ gs g j hj

theorem binary_decode_eq (e : BinaryEncoding) {c : List ℕ} (hne : c ≠ [])
    (hbits : ∀ b ∈ c, b = 0 ∨ b = 1) (hL : e.length ≠ 0) :
    BinaryEncoding.decode e c =
      some (e.x_min + (bitsToNat c : ℚ) / (2 ^ e.length - 1) * (e.x_max - e.x_min)) := by
  rw [BinaryEncoding.decode, turn_to_bits_of_bits hbits, int_base2_of_bits hne hbits]
  show (if e.length = 0 then none
    else some (e.x_min + (bitsToNat c : ℚ) / (2 ^ e.length - 1) * (e.x_max - e.x_min))) =
    some (e.x_min + (bitsToNat c : ℚ) / (2 ^ e.length - 1) * (e.x_max - e.x_min))
  rw [if_neg hL]

theorem gray_decode_eq_binary (e : GrayEncoding) (c : List ℕ) :
    GrayEncoding.decode e c =
      BinaryEncoding.decode ⟨e.length, e.x_min, e.x_max⟩ (gray_to_binary c) := rfl

theorem ofDigits_replicate_one (L : ℕ) : Nat.ofDigits 2 (List.replicate L 1) = 2 ^ L - 1 := by
  induction L with
  | zero => simp [Nat.ofDigits]
  | succ n ih =>
    rw [List.replicate_succ, Nat.ofDigits_cons, ih]
    have : 1 ≤ 2 ^ n := Nat.one_le_two_pow
    rw [pow_succ]
    omega

theorem bitsToNat_replicate_zero (L : ℕ) : bitsToNat (List.replicate L 0) = 0 := by
  rw [bitsToNat_eq, List.reverse_replicate]
  induction L with
  | zero => simp [Nat.ofDigits]
  | succ n ih => rw [List.replicate_succ, Nat.ofDigits_cons, ih]

theorem bitsToNat_replicate_one (L : ℕ) : bitsToNat (List.replicate L 1) = 2 ^ L - 1 := by
  rw [bitsToNat_eq, List.reverse_replicate, ofDigits_replicate_one]

theorem two_pow_sub_one_pos {L : ℕ} (hL : 1 ≤ L) : (0 : ℚ) < 2 ^ L - 1 := by
  have h2 : (2 : ℚ) ^ 1 ≤ 2 ^ L := by
    apply pow_le_pow_right₀ (by norm_num) hL
  simp at h2
  linarith

theorem scale_mem_Icc {num L : ℕ} {mn mx : ℚ} (hL : 1 ≤ L)
    (hnum : num < 2 ^ L) (hmn : mn ≤ mx) :
    mn ≤ mn + (num : ℚ) / (2 ^ L - 1) * (mx - mn) ∧
      mn + (num : ℚ) / (2 ^ L - 1) * (mx - mn) ≤ mx := by
  have hD : (0 : ℚ) < 2 ^ L - 1 := two_pow_sub_one_pos hL
  have hq0 : 0 ≤ (num : ℚ) / (2 ^ L - 1) := by positivity
  have hnum2 : (num : ℚ) ≤ 2 ^ L - 1 := by
    have : (num : ℚ) + 1 ≤ 2 ^ L := by exact_mod_cast Nat.succ_le_of_lt hnum
    linarith
  have hq1 : (num : ℚ) / (2 ^ L - 1) ≤ 1 := (div_le_one hD).mpr hnum2
  constructor
  · nlinarith [mul_nonneg hq0 (sub_nonneg.mpr hmn)]
  · nlinarith [mul_nonneg (sub_nonneg.mpr hq1) (sub_nonneg.mpr hmn)]

/-! ### Claim theorems: encodings -/

/-- C1: for every chromosome, `GrayEncoding.decode` first converts the
Gray-coded sequence to binary with the most-significant output bit equal to
the most-significant input bit and every subsequent output bit equal to the
XOR of the corresponding input bit and the previous OUTPUT bit, and
`GrayEncoding.decode` equals the binary decode formula applied to
`gray_to_binary` of the chromosome. -/
theorem gray_decode_spec (e : GrayEncoding) (c : List ℕ) :
    ((gray_to_binary c).getD 0 0 = c.getD 0 0) ∧
    (∀ i, i + 1 < c.length →
      (gray_to_binary c).getD (i + 1) 0 =
        c.getD (i + 1) 0 ^^^ (gray_to_binary c).getD i 0) ∧
    (GrayEncoding.decode e c =
      BinaryEncoding.decode ⟨e.length, e.x_min, e.x_max⟩ (gray_to_binary c)) :=
  ⟨gray_to_binary_getD_zero c, fun _ h => gray_to_binary_getD_succ h,
    gray_decode_eq_binary e c⟩

/-- C2: for every chromosome of exactly the configured length (at least 1),
`BinaryEncoding.decode` returns `x_min + num / (2^length - 1) * (x_max -
x_min)` where `num` is the base-2 value of the bits, most significant first;
the all-zero chromosome decodes to exactly `x_min`, the all-one chromosome
to exactly `x_max`, and `BinaryEncoding(length=4, x_min=0, x_max=15)`
decodes `[1,0,0,0]` to exactly 8. -/
theorem binary_decode_spec (e : BinaryEncoding) (c : List ℕ)
    (hlen : c.length = e.length) (hL : 1 ≤ e.length)
    (hbits : ∀ b ∈ c, b = 0 ∨ b = 1) :
    BinaryEncoding.decode e c =
      some (e.x_min + ((Nat.ofDigits 2 c.reverse : ℕ) : ℚ) / (2 ^ e.length - 1) *
        (e.x_max - e.x_min)) ∧
    BinaryEncoding.decode e (List.replicate e.length 0) = some e.x_min ∧
    BinaryEncoding.decode e (List.replicate e.length 1) = some e.x_max ∧
    BinaryEncoding.decode ⟨4, 0, 15⟩ [1, 0, 0, 0] = some 8 := by
  have hne : c ≠ [] := by
    intro h
    rw [h] at hlen
    simp at hlen
    omega
  refine ⟨?_, ?_, ?_, ?_⟩
  · rw [binary_decode_eq e hne hbits (by omega), bitsToNat_eq]
  · have hne0 : List.replicate e.length (0 : ℕ) ≠ [] := by
      simp [List.replicate_eq_nil_iff]
      omega
    rw [binary_decode_eq e hne0 (by intro b hb; left; exact List.eq_of_mem_replicate hb)
      (by omega), bitsToNat_replicate_zero]
    norm_num
  · have hne1 : List.replicate e.length (1 : ℕ) ≠ [] := by
      simp [List.replicate_eq_nil_iff]
      omega
    rw [binary_decode_eq e hne1 (by intro b hb; right; exact List.eq_of_mem_replicate hb)
      (by omega), bitsToNat_replicate_one]
    have hD : (0 : ℚ) < 2 ^ e.length - 1 := two_pow_sub_one_pos hL
    have hcast : ((2 ^ e.length - 1 : ℕ) : ℚ) = 2 ^ e.length - 1 := by
      have : 1 ≤ 2 ^ e.length := Nat.one_le_two_pow
      push_cast [this]
      ring
    rw [hcast, div_self (ne_of_gt hD)]
    norm_num
  · have h : turn_to_bits [1, 0, 0, 0] = [1, 0, 0, 0] := by
      simp [turn_to_bits, symbolDigits]
    simp [BinaryEncoding.decode, h, int_base2, bitsToNat]
    norm_num

/-- C5: for every bit sequence of exactly the configured length (length at
least 1, `x_min < x_max`) the decoded value of both encodings lies in the
closed interval from `x_min` to `x_max`. -/
theorem decode_range_spec (L : ℕ) (mn mx : ℚ) (c : List ℕ)
    (hlen : c.length = L) (hL : 1 ≤ L)
    (hbits : ∀ b ∈ c, b = 0 ∨ b = 1) (hmn : mn < mx) :
    (∃ r, BinaryEncoding.decode ⟨L, mn, mx⟩ c = some r ∧ mn ≤ r ∧ r ≤ mx) ∧
    (∃ r, GrayEncoding.decode ⟨L, mn, mx⟩ c = some r ∧ mn ≤ r ∧ r ≤ mx) := by
  have hne : c ≠ [] := by
    intro h
    rw [h] at hlen
    simp at hlen
    omega
  constructor
  · refine ⟨_, binary_decode_eq ⟨L, mn, mx⟩ hne hbits (show L ≠ 0 by omega), ?_⟩
    have hnum : bitsToNat c < 2 ^ L := by
      have := bitsToNat_lt hbits
      rwa [hlen] at this
    exact scale_mem_Icc hL hnum (le_of_lt hmn)
  · have hgb := gray_to_binary_bits hbits
    have hgne : gray_to_binary c ≠ [] := by
      intro h
      have := gray_to_binary_length c
      rw [h] at this
      simp at this
      omega
    rw [gray_decode_eq_binary]
    refine ⟨_, binary_decode_eq ⟨L, mn, mx⟩ hgne hgb (show L ≠ 0 by omega), ?_⟩
    have hnum : bitsToNat (gray_to_binary c) < 2 ^ L := by
      have := bitsToNat_lt hgb
      rwa [gray_to_binary_length, hlen] at this
    exact scale_mem_Icc hL hnum (le_of_lt hmn)

/-- Witness for C2 at `BinaryEncoding(length=4, x_min=0, x_max=15)` and
chromosome `[1,0,0,0]`. -/
theorem binary_decode_spec_witness :
    (([1, 0, 0, 0] : List ℕ).length = 4) ∧ (1 ≤ 4) ∧
    (∀ b ∈ ([1, 0, 0, 0] : List ℕ), b = 0 ∨ b = 1) ∧
    (BinaryEncoding.decode ⟨4, 0, 15⟩ [1, 0, 0, 0] =
      some (0 + ((Nat.ofDigits 2 ([1, 0, 0, 0] : List ℕ).reverse : ℕ) : ℚ) / (2 ^ 4 - 1) *
        (15 - 0)) ∧
    BinaryEncoding.decode ⟨4, 0, 15⟩ (List.replicate 4 0) = some 0 ∧
    BinaryEncoding.decode ⟨4, 0, 15⟩ (List.replicate 4 1) = some 15 ∧
    BinaryEncoding.decode ⟨4, 0, 15⟩ [1, 0, 0, 0] = some 8) :=
  ⟨rfl, by norm_num, by decide,
    binary_decode_spec ⟨4, 0, 15⟩ [1, 0, 0, 0] rfl (by norm_num) (by decide)⟩

/-- Witness for C5 at `length = 2`, `x_min = 0`, `x_max = 3` and chromosome
`[1, 0]`. -/
theorem decode_range_spec_witness :
    (([1, 0] : List ℕ).length = 2) ∧ (1 ≤ 2) ∧
    (∀ b ∈ ([1, 0] : List ℕ), b = 0 ∨ b = 1) ∧ ((0 : ℚ) < 3) ∧
    ((∃ r, BinaryEncoding.decode ⟨2, 0, 3⟩ [1, 0] = some r ∧ 0 ≤ r ∧ r ≤ 3) ∧
    (∃ r, GrayEncoding.decode ⟨2, 0, 3⟩ [1, 0] = some r ∧ 0 ≤ r ∧ r ≤ 3)) :=
  ⟨rfl, by norm_num, by decide, by norm_num,
    decode_range_spec 2 0 3 [1, 0] rfl (by norm_num) (by decide) (by norm_num)⟩

/-! ### Roulette lemmas -/

theorem foldl_min_le_init (xs : List ℚ) : ∀ acc, xs.foldl min acc ≤ acc := by
  induction xs with
  | nil => intro acc; simp
  | cons x xs ih => intro acc; exact le_trans (ih (min acc x)) (min_le_left acc x)

theorem foldl_min_le_mem (xs : List ℚ) : ∀ acc a, a ∈ xs → xs.foldl min acc ≤ a := by
  induction xs with
  | nil => intro acc a ha; simp at ha
  | cons x xs ih =>
    intro acc a ha
    rcases List.mem_cons.mp ha with h | h
    · subst h
      exact le_trans (foldl_min_le_init xs (min acc a)) (min_le_right acc a)
    · exact ih (min acc x) a h

theorem npMin_le {l : List ℚ} {a : ℚ} (ha : a ∈ l) : npMin l ≤ a := by
  cases l with
  | nil => simp at ha
  | cons x xs =>
    rcases List.mem_cons.mp ha with h | h
    · subst h
      exact foldl_min_le_init xs a
    · exact foldl_min_le_mem xs x a h

theorem foldl_min_const {v : ℚ} (xs : List ℚ) (h : ∀ a ∈ xs, a = v) :
    xs.foldl min v = v := by
  induction xs with
  | nil => rfl
  | cons x xs ih =>
    have hx : x = v := h x (List.mem_cons_self x xs)
    subst hx
    simp only [List.foldl_cons, min_self]
    exact ih (fun a ha => h a (List.mem_cons_of_mem x ha))

theorem npMin_const {l : List ℚ} {v : ℚ} (h : ∀ a ∈ l, a = v) (hne : l ≠ []) :
    npMin l = v := by
  cases l with
  | nil => exact absurd rfl hne
  | cons x xs =>
    have hx : x = v := h x (List.mem_cons_self x xs)
    subst hx
    exact foldl_min_const xs (fun a ha => h a (List.mem_cons_of_mem x ha))

theorem rouletteVals_pos {fitness : List ℚ} : ∀ v ∈ rouletteVals fitness, 0 < v := by
  intro v hv
  simp only [rouletteVals, List.mem_map] at hv
  obtain ⟨f, hf, rfl⟩ := hv
  have := npMin_le hf
  linarith

theorem rouletteVals_length (fitness : List ℚ) :
    (rouletteVals fitness).length = fitness.length := by
  simp [rouletteVals]

theorem rouletteVals_sum_pos {fitness : List ℚ} (hne : fitness ≠ []) :
    0 < (rouletteVals fitness).sum := by
  apply List.sum_pos
  · exact rouletteVals_pos
  · simp only [rouletteVals, ne_eq, List.map_eq_nil_iff]
    exact hne

theorem sum_map_div (l : List ℚ) (s : ℚ) :
    (l.map (fun v => v / s)).sum = l.sum / s := by
  induction l with
  | nil => simp
  | cons x xs ih => simp [ih, add_div]

theorem rouletteProbs_pos {fitness : List ℚ} (hne : fitness ≠ []) :
    ∀ p ∈ rouletteProbs fitness, 0 < p := by
  intro p hp
  simp only [rouletteProbs, List.mem_map] at hp
  obtain ⟨v, hv, rfl⟩ := hp
  exact div_pos (rouletteVals_pos v hv) (rouletteVals_sum_pos hne)

theorem rouletteProbs_sum {fitness : List ℚ} (hne : fitness ≠ []) :
    (rouletteProbs fitness).sum = 1 := by
  rw [rouletteProbs, sum_map_div, div_self (ne_of_gt (rouletteVals_sum_pos hne))]

theorem rouletteProbs_length (fitness : List ℚ) :
    (rouletteProbs fitness).length = fitness.length := by
  simp [rouletteProbs, rouletteVals]

theorem rouletteProbs_uniform {fitness : List ℚ} {v : ℚ} (hne : fitness ≠ [])
    (h : ∀ a ∈ fitness, a = v) :
    ∀ p ∈ rouletteProbs fitness, p = 1 / fitness.length := by
  have hmin : npMin fitness = v := npMin_const h hne
  have hvals : rouletteVals fitness =
      List.replicate fitness.length (1 / 1000000000 : ℚ) := by
    rw [rouletteVals]
    have : fitness.map (fun f => f - npMin fitness + 1 / 1000000000) =
        fitness.map (fun _ => (1 / 1000000000 : ℚ)) := by
      apply List.map_congr_left
      intro a ha
      rw [hmin, h a ha]
      ring
    rw [this, List.map_const']
  have hn0 : fitness.length ≠ 0 := by
    simpa [List.length_eq_zero] using hne
  have hnq : (fitness.length : ℚ) ≠ 0 := by
    exact_mod_cast hn0
  intro p hp
  simp only [rouletteProbs, hvals, List.mem_map, List.mem_replicate] at hp
  obtain ⟨w, ⟨-, rfl⟩, rfl⟩ := hp
  rw [List.sum_replicate, nsmul_eq_mul]
  field_simp

/-! ### Clone lemmas -/

theorem cloneAll_fst_length (individuals : List Individual) (idx : List ℕ) :
    ∀ store : Store, (cloneAll individuals idx store).1.length = idx.length := by
  induction idx with
  | nil => intro store; rfl
  | cons i rest ih => intro store; simp [cloneAll, ih]

theorem cloneAll_addr_map (individuals : List Individual) (idx : List ℕ) :
    ∀ store : Store, (cloneAll individuals idx store).1.map Individual.addr =
      List.range' store.length idx.length := by
  induction idx with
  | nil => intro store; rfl
  | cons i rest ih =>
    intro store
    simp only [cloneAll, List.map_cons, Individual.clone]
    rw [ih]
    simp [List.range'_succ]

/-! ### Argsort and threshold-pool lemmas -/

theorem argsort_perm (fitness : List ℚ) :
    (argsort fitness).Perm (List.range fitness.length) :=
  List.perm_insertionSort _ _

theorem argsort_length (fitness : List ℚ) :
    (argsort fitness).length = fitness.length := by
  simpa using (argsort_perm fitness).length_eq

theorem mem_argsort {fitness : List ℚ} {i : ℕ} :
    i ∈ argsort fitness ↔ i < fitness.length := by
  rw [(argsort_perm fitness).mem_iff, List.mem_range]

theorem argsort_sorted (fitness : List ℚ) :
    (argsort fitness).Pairwise (fun i j => fitness.getD i 0 ≤ fitness.getD j 0) := by
  haveI : IsTotal ℕ (fun i j => fitness.getD i 0 ≤ fitness.getD j 0) :=
    ⟨fun a b => le_total _ _⟩
  haveI : IsTrans ℕ (fun i j => fitness.getD i 0 ≤ fitness.getD j 0) :=
    ⟨fun a b c hab hbc => le_trans hab hbc⟩
  exact List.sorted_insertionSort _ _

theorem thresholdCutoff_pos {gamma : ℚ} {n : ℕ} (hg : 0 < gamma) (hn : 1 ≤ n) :
    1 ≤ thresholdCutoff gamma n := by
  have hnq : (0 : ℚ) < n := by exact_mod_cast hn
  have h : (0 : ℚ) < gamma / 100 * n := by positivity
  have hceil : 0 < Int.ceil (gamma / 100 * (n : ℚ)) := Int.ceil_pos.mpr h
  rw [thresholdCutoff]
  omega

theorem thresholdCutoff_le {gamma : ℚ} {n : ℕ} (hg : gamma ≤ 100) :
    thresholdCutoff gamma n ≤ n := by
  have hn0 : (0 : ℚ) ≤ n := Nat.cast_nonneg n
  have hmul : gamma / 100 * (n : ℚ) ≤ (n : ℚ) := by
    have h1 : gamma / 100 ≤ 1 := by
      rw [div_le_one (by norm_num : (0:ℚ) < 100)]
      exact hg
    nlinarith
  have hceil : Int.ceil (gamma / 100 * (n : ℚ)) ≤ (n : ℤ) := by
    rw [Int.ceil_le]
    push_cast
    exact hmul
  rw [thresholdCutoff]
  omega

theorem thresholdPool_eq_drop {gamma : ℚ} {n : ℕ} (fitness : List ℚ)
    (hc : 1 ≤ thresholdCutoff gamma n) :
    thresholdPool gamma n fitness =
      (argsort fitness).drop ((argsort fitness).length - thresholdCutoff gamma n) := by
  rw [thresholdPool, pyLastSlice, if_neg (by omega)]

theorem thresholdPool_subset {gamma : ℚ} {n : ℕ} {fitness : List ℚ} :
    ∀ i ∈ thresholdPool gamma n fitness, i ∈ argsort fitness := by
  intro i hi
  rw [thresholdPool, pyLastSlice] at hi
  by_cases h : thresholdCutoff gamma n = 0
  · rwa [if_pos h] at hi
  · rw [if_neg h] at hi
    exact List.drop_subset _ _ hi

theorem thresholdPool_lt {gamma : ℚ} {n : ℕ} {fitness : List ℚ} :
    ∀ i ∈ thresholdPool gamma n fitness, i < fitness.length := by
  intro i hi
  exact mem_argsort.mp (thresholdPool_subset i hi)

theorem thresholdPool_length {gamma : ℚ} {n : ℕ} (fitness : List ℚ)
    (hc : 1 ≤ thresholdCutoff gamma n) (hcn : thresholdCutoff gamma n ≤ fitness.length) :
    (thresholdPool gamma n fitness).length = thresholdCutoff gamma n := by
  rw [thresholdPool_eq_drop fitness hc, List.length_drop, argsort_length]
  omega

theorem thresholdPool_top {gamma : ℚ} {n : ℕ} {fitness : List ℚ}
    (hc : 1 ≤ thresholdCutoff gamma n) :
    ∀ i ∈ thresholdPool gamma n fitness, ∀ j, j < fitness.length →
      j ∉ thresholdPool gamma n fitness → fitness.getD j 0 ≤ fitness.getD i 0 := by
  intro i hi j hj hjn
  have hpool := thresholdPool_eq_drop fitness hc
  set s := argsort fitness with hs
  set k := s.length - thresholdCutoff gamma n with hk
  have hjs : j ∈ s := mem_argsort.mpr hj
  have hsplit : s.take k ++ s.drop k = s := List.take_append_drop k s
  have hjsplit : j ∈ s.take k ++ s.drop k := by
    rw [hsplit]
    exact hjs
  have hjtake : j ∈ s.take k := by
    rcases List.mem_append.mp hjsplit with h | h
    · exact h
    · exact absurd (hpool.symm ▸ h) hjn
  have hpw : (s.take k ++ s.drop k).Pairwise
      (fun i j => fitness.getD i 0 ≤ fitness.getD j 0) := by
    rw [hsplit]
    exact argsort_sorted fitness
  have htop := (List.pairwise_append.mp hpw).2.2
  exact htop j hjtake i (hpool ▸ hi)

theorem thresholdPool_gamma100 {n : ℕ} {fitness : List ℚ} (hlen : fitness.length = n) :
    (thresholdPool 100 n fitness).Perm (List.range n) := by
  have hcut : thresholdCutoff 100 n = n := by
    rw [thresholdCutoff]
    have h : (100 : ℚ) / 100 * (n : ℚ) = (n : ℚ) := by norm_num
    rw [h, Int.ceil_natCast]
    simp
  rw [thresholdPool, hcut, pyLastSlice]
  by_cases h0 : n = 0
  · rw [if_pos h0]
    have := argsort_length fitness
    rw [hlen, h0] at this
    rw [List.length_eq_zero.mp this, h0]
    rfl
  · rw [if_neg h0, argsort_length, hlen, Nat.sub_self, List.drop_zero]
    exact hlen ▸ argsort_perm fitness

/-! ### Select success lemmas -/

theorem chosenIdx_length (gamma : ℚ) (n : ℕ) (fitness : List ℚ) (draws : ℕ → ℕ) :
    (ThresholdSelection.chosenIdx gamma n fitness draws).length = n := by
  simp [ThresholdSelection.chosenIdx]

theorem chosenIdx_mem_pool {gamma : ℚ} {n : ℕ} {fitness : List ℚ} {draws : ℕ → ℕ}
    (hdraws : ∀ j, draws j < (thresholdPool gamma n fitness).length) :
    ∀ i ∈ ThresholdSelection.chosenIdx gamma n fitness draws,
      i ∈ thresholdPool gamma n fitness := by
  intro i hi
  simp only [ThresholdSelection.chosenIdx, List.mem_map, List.mem_range] at hi
  obtain ⟨j, -, rfl⟩ := hi
  rw [List.getD_eq_getElem _ _ (hdraws j)]
  exact List.getElem_mem _

theorem threshold_select_ok {gamma : ℚ} {individuals : List Individual}
    {fitness : List ℚ} (draws : ℕ → ℕ) (store : Store)
    (hn : 1 ≤ individuals.length)
    (hpool_ne : thresholdPool gamma individuals.length fitness ≠ [])
    (hpool_lt : ∀ i ∈ thresholdPool gamma individuals.length fitness,
      i < individuals.length) :
    ThresholdSelection.select gamma individuals fitness draws store =
      Except.ok (cloneAll individuals
        (ThresholdSelection.chosenIdx gamma individuals.length fitness draws) store) := by
  rw [ThresholdSelection.select]
  rw [if_neg (by
    intro h
    exact hpool_ne h.1)]
  rw [if_pos]
  intro i hi
  simp only [ThresholdSelection.chosenIdx, List.mem_map, List.mem_range] at hi
  obtain ⟨j, -, rfl⟩ := hi
  set pool := thresholdPool gamma individuals.length fitness with hpdef
  by_cases hd : draws j < pool.length
  · rw [List.getD_eq_getElem _ _ hd]
    exact hpool_lt _ (List.getElem_mem _)
  · rw [List.getD_eq_default]
    · omega
    · omega

theorem roulette_select_ok {individuals : List Individual} {fitness : List ℚ}
    {draws : ℕ → ℕ} (store : Store) (hlen : fitness.length = individuals.length)
    (hne : fitness ≠ []) (hdraws : ∀ j, draws j < individuals.length) :
    RouletteSelection.select individuals fitness draws store =
      Except.ok (cloneAll individuals
        ((List.range individuals.length).map draws) store) := by
  rw [RouletteSelection.select, if_neg hne]
  rw [if_neg (by
    rw [rouletteProbs_length, hlen]
    exact fun h => h rfl)]
  rw [if_pos]
  intro i hi
  simp only [List.mem_map, List.mem_range] at hi
  obtain ⟨j, -, rfl⟩ := hi
  exact hdraws j

theorem thresholdPool_ne_nil {gamma : ℚ} {n : ℕ} {fitness : List ℚ}
    (hc : 1 ≤ thresholdCutoff gamma n) (hf : fitness ≠ []) :
    thresholdPool gamma n fitness ≠ [] := by
  rw [thresholdPool_eq_drop fitness hc]
  have hlen : (argsort fitness).length = fitness.length := argsort_length fitness
  have hf0 : fitness.length ≠ 0 := by
    simpa [List.length_eq_zero] using hf
  intro h
  rw [List.drop_eq_nil_iff] at h
  omega

theorem thresholdCutoff_50_4 : thresholdCutoff 50 4 = 2 := by
  have h : ⌈(50 : ℚ) / 100 * 4⌉ = 2 := by
    rw [Int.ceil_eq_iff]
    norm_num
  simp [thresholdCutoff, h]

theorem argsort_1234 : argsort [1, 2, 3, 4] = [0, 1, 2, 3] := by
  simp [argsort, List.insertionSort, List.orderedInsert, List.range, List.range.loop]

theorem thresholdPool_50_4 : thresholdPool 50 4 [1, 2, 3, 4] = [2, 3] := by
  rw [thresholdPool, thresholdCutoff_50_4, argsort_1234, pyLastSlice]
  norm_num

/-! ### Claim theorems: selection -/

/-- C3: for every population of at least one individual with an index-aligned
fitness vector and every gamma in the interval from 0 exclusive to 100,
`ThresholdSelection.select` computes `cutoff` as the ceiling of
`gamma / 100 * N` (always at least 1), restricts the sampling pool to the
`cutoff` indices of highest fitness, and draws all `N` returned indices from
that pool only; `gamma = 100` makes the pool a permutation of the whole
index range; for fitness `[1, 2, 3, 4]` and `gamma = 50` the cutoff is 2 and
every chosen index has fitness 3 or 4. -/
theorem threshold_select_spec (individuals : List Individual) (fitness : List ℚ)
    (gamma : ℚ) (draws : ℕ → ℕ) (store : Store)
    (hlen : fitness.length = individuals.length) (hn : 1 ≤ individuals.length)
    (hg0 : 0 < gamma) (hg1 : gamma ≤ 100)
    (hdraws : ∀ j, draws j < (thresholdPool gamma individuals.length fitness).length) :
    (thresholdCutoff gamma individuals.length =
      (Int.ceil (gamma / 100 * (individuals.length : ℚ))).toNat) ∧
    (1 ≤ thresholdCutoff gamma individuals.length) ∧
    ((thresholdPool gamma individuals.length fitness).length =
      thresholdCutoff gamma individuals.length) ∧
    (∀ i ∈ ThresholdSelection.chosenIdx gamma individuals.length fitness draws,
      i ∈ thresholdPool gamma individuals.length fitness) ∧
    (∀ i ∈ thresholdPool gamma individuals.length fitness,
      ∀ j, j < individuals.length →
        j ∉ thresholdPool gamma individuals.length fitness →
          fitness.getD j 0 ≤ fitness.getD i 0) ∧
    (ThresholdSelection.select gamma individuals fitness draws store =
      Except.ok (cloneAll individuals
        (ThresholdSelection.chosenIdx gamma individuals.length fitness draws) store)) ∧
    (gamma = 100 → (thresholdPool gamma individuals.length fitness).Perm
      (List.range individuals.length)) ∧
    (thresholdCutoff 50 4 = 2 ∧
      ∀ d : ℕ → ℕ, (∀ j, d j < 2) →
        ∀ i ∈ ThresholdSelection.chosenIdx 50 4 [1, 2, 3, 4] d,
          ([1, 2, 3, 4] : List ℚ).getD i 0 = 3 ∨
            ([1, 2, 3, 4] : List ℚ).getD i 0 = 4) := by
  have hc : 1 ≤ thresholdCutoff gamma individuals.length := thresholdCutoff_pos hg0 hn
  have hcn : thresholdCutoff gamma individuals.length ≤ fitness.length := by
    rw [hlen]
    exact thresholdCutoff_le hg1
  refine ⟨rfl, hc, thresholdPool_length fitness hc hcn, chosenIdx_mem_pool hdraws,
    ?_, ?_, ?_, thresholdCutoff_50_4, ?_⟩
  · intro i hi j hj hjn
    exact thresholdPool_top hc i hi j (by omega) hjn
  · apply threshold_select_ok draws store hn
    · exact thresholdPool_ne_nil hc (by
        intro h
        rw [h] at hlen
        simp at hlen
        omega)
    · intro i hi
      have := thresholdPool_lt i hi
      omega
  · intro h100
    subst h100
    exact thresholdPool_gamma100 hlen
  · intro d hd i hi
    have hd2 : ∀ j, d j < (thresholdPool 50 4 [1, 2, 3, 4]).length := by
      intro j
      rw [thresholdPool_50_4]
      exact hd j
    have hmem := chosenIdx_mem_pool hd2 i hi
    rw [thresholdPool_50_4] at hmem
    rcases List.mem_cons.mp hmem with h | h
    · subst h
      left
      rfl
    · rcases List.mem_cons.mp h with h2 | h2
      · subst h2
        right
        rfl
      · simp at h2

/-- Witness for C3 at four individuals with fitness `[1, 2, 3, 4]`,
`gamma = 50`, an oracle always answering 0, and a four-cell store. -/
theorem threshold_select_spec_witness :
    (([1, 2, 3, 4] : List ℚ).length =
      ([⟨0⟩, ⟨1⟩, ⟨2⟩, ⟨3⟩] : List Individual).length) ∧
    (1 ≤ ([⟨0⟩, ⟨1⟩, ⟨2⟩, ⟨3⟩] : List Individual).length) ∧
    ((0 : ℚ) < 50) ∧ ((50 : ℚ) ≤ 100) ∧
    (∀ j : ℕ, (fun _ => 0 : ℕ → ℕ) j < (thresholdPool 50 4 [1, 2, 3, 4]).length) ∧
    ((thresholdCutoff 50 4 = (Int.ceil ((50 : ℚ) / 100 * (4 : ℚ))).toNat) ∧
    (1 ≤ thresholdCutoff 50 4) ∧
    ((thresholdPool 50 4 [1, 2, 3, 4]).length = thresholdCutoff 50 4) ∧
    (∀ i ∈ ThresholdSelection.chosenIdx 50 4 [1, 2, 3, 4] (fun _ => 0),
      i ∈ thresholdPool 50 4 [1, 2, 3, 4]) ∧
    (∀ i ∈ thresholdPool 50 4 [1, 2, 3, 4], ∀ j, j < 4 →
      j ∉ thresholdPool 50 4 [1, 2, 3, 4] →
        ([1, 2, 3, 4] : List ℚ).getD j 0 ≤ ([1, 2, 3, 4] : List ℚ).getD i 0) ∧
    (ThresholdSelection.select 50 [⟨0⟩, ⟨1⟩, ⟨2⟩, ⟨3⟩] [1, 2, 3, 4] (fun _ => 0)
        [[0], [0], [0], [0]] =
      Except.ok (cloneAll [⟨0⟩, ⟨1⟩, ⟨2⟩, ⟨3⟩]
        (ThresholdSelection.chosenIdx 50 4 [1, 2, 3, 4] (fun _ => 0))
        [[0], [0], [0], [0]])) ∧
    ((50 : ℚ) = 100 → (thresholdPool 50 4 [1, 2, 3, 4]).Perm (List.range 4)) ∧
    (thresholdCutoff 50 4 = 2 ∧
      ∀ d : ℕ → ℕ, (∀ j, d j < 2) →
        ∀ i ∈ ThresholdSelection.chosenIdx 50 4 [1, 2, 3, 4] d,
          ([1, 2, 3, 4] : List ℚ).getD i 0 = 3 ∨
            ([1, 2, 3, 4] : List ℚ).getD i 0 = 4)) :=
  ⟨rfl, by norm_num, by norm_num, by norm_num,
    (by
      intro j
      rw [thresholdPool_50_4]
      norm_num),
    threshold_select_spec [⟨0⟩, ⟨1⟩, ⟨2⟩, ⟨3⟩] [1, 2, 3, 4] 50 (fun _ => 0)
      [[0], [0], [0], [0]] rfl (by norm_num) (by norm_num) (by norm_num)
      (by
        intro j
        show (fun _ => 0 : ℕ → ℕ) j < (thresholdPool 50 4 [1, 2, 3, 4]).length
        rw [thresholdPool_50_4]
        norm_num)⟩

/-- C4: `RouletteSelection.select` forms strictly positive weights by
shifting fitness by its minimum plus a small positive constant, normalizes
them into a probability vector summing to exactly 1, samples the returned
indices through the generator oracle over that vector, and returns one clone
per drawn index; with all fitness values equal the vector is exactly
uniform. -/
theorem roulette_select_spec (individuals : List Individual) (fitness : List ℚ)
    (draws : ℕ → ℕ) (store : Store)
    (hlen : fitness.length = individuals.length) (hn : 1 ≤ individuals.length)
    (hdraws : ∀ j, draws j < individuals.length) :
    (∀ v ∈ rouletteVals fitness, 0 < v) ∧
    (∀ p ∈ rouletteProbs fitness, 0 < p) ∧
    ((rouletteProbs fitness).sum = 1) ∧
    ((∀ a ∈ fitness, ∀ b ∈ fitness, a = b) →
      ∀ p ∈ rouletteProbs fitness, p = 1 / individuals.length) ∧
    (RouletteSelection.select individuals fitness draws store =
      Except.ok (cloneAll individuals
        ((List.range individuals.length).map draws) store)) ∧
    ((cloneAll individuals ((List.range individuals.length).map draws) store).1.length =
      individuals.length) := by
  have hne : fitness ≠ [] := by
    intro h
    rw [h] at hlen
    simp at hlen
    omega
  refine ⟨rouletteVals_pos, rouletteProbs_pos hne, rouletteProbs_sum hne, ?_, ?_, ?_⟩
  · intro hconst
    obtain ⟨x, hx⟩ := List.exists_mem_of_ne_nil fitness hne
    have hall : ∀ a ∈ fitness, a = x := fun a ha => hconst a ha x hx
    have := rouletteProbs_uniform hne hall
    intro p hp
    rw [this p hp, hlen]
  · exact roulette_select_ok store hlen hne hdraws
  · rw [cloneAll_fst_length]
    simp

/-- Witness for C4 at two individuals with equal fitness `[7, 7]`, an oracle
always answering 1, and a two-cell store. -/
theorem roulette_select_spec_witness :
    (([7, 7] : List ℚ).length = ([⟨0⟩, ⟨1⟩] : List Individual).length) ∧
    (1 ≤ ([⟨0⟩, ⟨1⟩] : List Individual).length) ∧
    (∀ j : ℕ, (fun _ => 1 : ℕ → ℕ) j < ([⟨0⟩, ⟨1⟩] : List Individual).length) ∧
    ((∀ v ∈ rouletteVals [7, 7], 0 < v) ∧
    (∀ p ∈ rouletteProbs [7, 7], 0 < p) ∧
    ((rouletteProbs [7, 7]).sum = 1) ∧
    ((∀ a ∈ ([7, 7] : List ℚ), ∀ b ∈ ([7, 7] : List ℚ), a = b) →
      ∀ p ∈ rouletteProbs [7, 7], p = 1 / 2) ∧
    (RouletteSelection.select [⟨0⟩, ⟨1⟩] [7, 7] (fun _ => 1) [[0], [1]] =
      Except.ok (cloneAll [⟨0⟩, ⟨1⟩] ((List.range 2).map (fun _ => 1)) [[0], [1]])) ∧
    ((cloneAll [⟨0⟩, ⟨1⟩] ((List.range 2).map (fun _ => 1)) [[0], [1]]).1.length = 2)) :=
  ⟨rfl, by norm_num, by
    intro j
    norm_num,
    roulette_select_spec [⟨0⟩, ⟨1⟩] [7, 7] (fun _ => 1) [[0], [1]] rfl (by norm_num)
      (by
        intro j
        norm_num)⟩

/-- C10: on every valid input (equal lengths, at least one individual, and
for Threshold a gamma in the interval from 0 exclusive to 100), both
`RouletteSelection.select` and `ThresholdSelection.select` succeed and
return a sequence of exactly the input population's length. -/
theorem select_length_spec (individuals : List Individual) (fitness : List ℚ)
    (gamma : ℚ) (draws drawsT : ℕ → ℕ) (store : Store)
    (hlen : fitness.length = individuals.length) (hn : 1 ≤ individuals.length)
    (hg0 : 0 < gamma) (hg1 : gamma ≤ 100)
    (hdraws : ∀ j, draws j < individuals.length) :
    (∃ res s2, RouletteSelection.select individuals fitness draws store =
      Except.ok (res, s2) ∧ res.length = individuals.length) ∧
    (∃ res s2, ThresholdSelection.select gamma individuals fitness drawsT store =
      Except.ok (res, s2) ∧ res.length = individuals.length) := by
  have hne : fitness ≠ [] := by
    intro h
    rw [h] at hlen
    simp at hlen
    omega
  constructor
  · refine ⟨_, _, roulette_select_ok store hlen hne hdraws, ?_⟩
    rw [cloneAll_fst_length]
    simp
  · have hc : 1 ≤ thresholdCutoff gamma individuals.length := thresholdCutoff_pos hg0 hn
    refine ⟨_, _, threshold_select_ok drawsT store hn (thresholdPool_ne_nil hc hne) ?_, ?_⟩
    · intro i hi
      have := thresholdPool_lt i hi
      omega
    · rw [cloneAll_fst_length, chosenIdx_length]

/-- Witness for C10 at one individual with fitness `[5]`, `gamma = 100`, and
oracles always answering 0. -/
theorem select_length_spec_witness :
    (([5] : List ℚ).length = ([⟨0⟩] : List Individual).length) ∧
    (1 ≤ ([⟨0⟩] : List Individual).length) ∧ ((0 : ℚ) < 100) ∧ ((100 : ℚ) ≤ 100) ∧
    (∀ j : ℕ, (fun _ => 0 : ℕ → ℕ) j < ([⟨0⟩] : List Individual).length) ∧
    ((∃ res s2, RouletteSelection.select [⟨0⟩] [5] (fun _ => 0) [[1]] =
      Except.ok (res, s2) ∧ res.length = 1) ∧
    (∃ res s2, ThresholdSelection.select 100 [⟨0⟩] [5] (fun _ => 0) [[1]] =
      Except.ok (res, s2) ∧ res.length = 1)) :=
  ⟨rfl, by norm_num, by norm_num, by norm_num, by
    intro j
    norm_num,
    select_length_spec [⟨0⟩] [5] 100 (fun _ => 0) (fun _ => 0) [[1]] rfl (by norm_num)
      (by norm_num) (by norm_num) (by
        intro j
        norm_num)⟩

/-! ### Error-handling and cloning lemmas -/

theorem roulette_select_empty (individuals : List Individual) (draws : ℕ → ℕ)
    (store : Store) :
    RouletteSelection.select individuals [] draws store =
      Except.error ("ValueError: zero-size array to reduction operation minimum") := by
  rw [RouletteSelection.select, if_pos rfl]

theorem roulette_select_mismatch {individuals : List Individual} {fitness : List ℚ}
    (draws : ℕ → ℕ) (store : Store) (hne : fitness ≠ [])
    (hmm : fitness.length ≠ individuals.length) :
    RouletteSelection.select individuals fitness draws store =
      Except.error ("ValueError: a and p must have same size") := by
  rw [RouletteSelection.select, if_neg hne, if_pos]
  rw [rouletteProbs_length]
  exact hmm

theorem two_mem_turn_to_bits {c : List ℕ} (h : 2 ∈ c) : 2 ∈ turn_to_bits c := by
  rw [turn_to_bits, List.mem_flatten]
  exact ⟨[2], List.mem_map.mpr ⟨2, h, by simp [symbolDigits]⟩, by simp⟩

theorem int_base2_turn_none_of_two {c : List ℕ} (h : 2 ∈ c) :
    int_base2 (turn_to_bits c) = none := by
  rw [int_base2, if_neg]
  intro hcond
  rcases hcond.2 2 (two_mem_turn_to_bits h) with h2 | h2 <;> omega

theorem getD_append_length (l : List Chromosome) (x : Chromosome) :
    (l ++ [x]).getD l.length [] = x := by
  rw [List.getD_eq_getElem?_getD, List.getElem?_append_right (le_refl _)]
  simp

theorem getD_append_lt (l : List Chromosome) (x : Chromosome) {b : ℕ}
    (hb : b < l.length) : (l ++ [x]).getD b [] = l.getD b [] := by
  rw [List.getD_eq_getElem?_getD, List.getElem?_append_left hb,
    ← List.getD_eq_getElem?_getD]

theorem setBit_other {store : Store} {a b i v : ℕ} (hab : a ≠ b) :
    (setBit store a i v).getD b [] = store.getD b [] := by
  rw [setBit, List.getD_eq_getElem?_getD, List.getElem?_set_ne hab,
    ← List.getD_eq_getElem?_getD]

theorem cloneAll_fresh (individuals : List Individual) (idx : List ℕ) (store : Store) :
    ∀ r ∈ (cloneAll individuals idx store).1, store.length ≤ r.addr := by
  intro r hr
  have hmem : r.addr ∈ List.range' store.length idx.length := by
    rw [← cloneAll_addr_map individuals idx store]
    exact List.mem_map_of_mem _ hr
  obtain ⟨i, hi, heq⟩ := List.mem_range'.mp hmem
  omega

theorem cloneAll_pairwise (individuals : List Individual) (idx : List ℕ) (store : Store) :
    (cloneAll individuals idx store).1.Pairwise (fun a b => a.addr ≠ b.addr) := by
  have hnd : ((cloneAll individuals idx store).1.map Individual.addr).Nodup := by
    rw [cloneAll_addr_map]
    exact List.nodup_range' _ _ 1 (by norm_num)
  rw [List.Nodup, List.pairwise_map] at hnd
  exact hnd

theorem roulette_select_ok_inv {individuals : List Individual} {fitness : List ℚ}
    {draws : ℕ → ℕ} {store : Store} {res : List Individual} {s2 : Store}
    (h : RouletteSelection.select individuals fitness draws store = Except.ok (res, s2)) :
    ∃ idx : List ℕ, (res, s2) = cloneAll individuals idx store := by
  rw [RouletteSelection.select] at h
  split at h
  · exact absurd h (by simp)
  · split at h
    · exact absurd h (by simp)
    · split at h
      · injection h with h2
        exact ⟨_, h2.symm⟩
      · exact absurd h (by simp)

theorem threshold_select_ok_inv {gamma : ℚ} {individuals : List Individual}
    {fitness : List ℚ} {draws : ℕ → ℕ} {store : Store} {res : List Individual}
    {s2 : Store}
    (h : ThresholdSelection.select gamma individuals fitness draws store =
      Except.ok (res, s2)) :
    ∃ idx : List ℕ, (res, s2) = cloneAll individuals idx store := by
  rw [ThresholdSelection.select] at h
  split at h
  · exact absurd h (by simp)
  · split at h
    · injection h with h2
      exact ⟨_, h2.symm⟩
    · exact absurd h (by simp)

/-! ### Claim theorems: validation and cloning -/

/-- C6 counterexample: calling `ThresholdSelection.select` with 3 individuals
and 2 fitness values does not fail at all, contrary to the claim that any
length mismatch raises `DimensionMismatchError`: it returns a normal
length-3 result (the argsort works on the 2 fitness entries and the drawn
indices 0 and 0 and 0 are valid positions of the individuals list). -/
theorem select_mismatch_counterexample :
    ThresholdSelection.select 50 [⟨0⟩, ⟨1⟩, ⟨2⟩] [1, 2] (fun _ => 0) [[0], [1], [0]] =
      Except.ok ([⟨3⟩, ⟨4⟩, ⟨5⟩], [[0], [1], [0], [0], [0], [0]]) := by
  have hc : thresholdCutoff 50 3 = 2 := by
    have h : ⌈(50 : ℚ) / 100 * 3⌉ = 2 := by
      rw [Int.ceil_eq_iff]
      norm_num
    simp [thresholdCutoff, h]
  have ha : argsort [1, 2] = [0, 1] := by
    simp [argsort, List.insertionSort, List.orderedInsert, List.range, List.range.loop]
  have hp : thresholdPool 50 3 [1, 2] = [0, 1] := by
    simp [thresholdPool, hc, ha, pyLastSlice]
  simp [ThresholdSelection.select, hp, ThresholdSelection.chosenIdx, List.range,
    List.range.loop, cloneAll, Individual.clone]

/-- C6 (amended): the source performs no explicit input validation and
defines neither `DimensionMismatchError` nor `EmptyPopulationError`.
`RouletteSelection.select` on mismatched lengths fails only through numpy's
`ValueError` (probability vector size differs from the sampled range), and
on an empty fitness vector through numpy's empty-reduction `ValueError`;
`ThresholdSelection.select` with 3 individuals and 2 fitness values raises
nothing and returns a length-3 result. -/
theorem select_no_validation_spec (individuals : List Individual) (fitness : List ℚ)
    (draws : ℕ → ℕ) (store : Store) (gamma : ℚ) (hne : fitness ≠ [])
    (hmm : fitness.length ≠ individuals.length) (hg : 0 < gamma) :
    (RouletteSelection.select individuals fitness draws store =
      Except.error ("ValueError: a and p must have same size")) ∧
    (∀ (inds2 : List Individual) (draws2 : ℕ → ℕ) (store2 : Store),
      RouletteSelection.select inds2 [] draws2 store2 =
        Except.error ("ValueError: zero-size array to reduction operation minimum")) ∧
    (∃ res s2, ThresholdSelection.select gamma [⟨0⟩, ⟨1⟩, ⟨2⟩] [1, 2] draws store =
      Except.ok (res, s2) ∧ res.length = 3) := by
  refine ⟨roulette_select_mismatch draws store hne hmm,
    fun inds2 draws2 store2 => roulette_select_empty inds2 draws2 store2, ?_⟩
  have hc : 1 ≤ thresholdCutoff gamma 3 := thresholdCutoff_pos hg (by norm_num)
  have hsel := @threshold_select_ok gamma [⟨0⟩, ⟨1⟩, ⟨2⟩] [1, 2] draws store (by norm_num)
    (thresholdPool_ne_nil hc (by simp))
    (by
      intro i hi
      have := thresholdPool_lt i hi
      simp at this
      simp
      omega)
  refine ⟨(cloneAll [⟨0⟩, ⟨1⟩, ⟨2⟩]
      (ThresholdSelection.chosenIdx gamma 3 [1, 2] draws) store).1,
    (cloneAll [⟨0⟩, ⟨1⟩, ⟨2⟩]
      (ThresholdSelection.chosenIdx gamma 3 [1, 2] draws) store).2, hsel, ?_⟩
  rw [cloneAll_fst_length, chosenIdx_length]

/-- Witness for C6 (amended) at one individual versus two fitness values,
`gamma = 50`, an oracle always answering 0, and a one-cell store. -/
theorem select_no_validation_spec_witness :
    (([1, 2] : List ℚ) ≠ []) ∧
    (([1, 2] : List ℚ).length ≠ ([⟨0⟩] : List Individual).length) ∧
    ((0 : ℚ) < 50) ∧
    ((RouletteSelection.select [⟨0⟩] [1, 2] (fun _ => 0) [[0]] =
      Except.error ("ValueError: a and p must have same size")) ∧
    (∀ (inds2 : List Individual) (draws2 : ℕ → ℕ) (store2 : Store),
      RouletteSelection.select inds2 [] draws2 store2 =
        Except.error ("ValueError: zero-size array to reduction operation minimum")) ∧
    (∃ res s2, ThresholdSelection.select 50 [⟨0⟩, ⟨1⟩, ⟨2⟩] [1, 2] (fun _ => 0) [[0]] =
      Except.ok (res, s2) ∧ res.length = 3)) :=
  ⟨by simp, by simp, by norm_num,
    select_no_validation_spec [⟨0⟩] [1, 2] (fun _ => 0) [[0]] 50 (by simp) (by simp)
      (by norm_num)⟩

/-- C7 counterexample: a chromosome of length 5 fed to a `BinaryEncoding`
configured with length 4 is decoded without any error (`num = 31`, scaled by
the configured length's denominator 15), contrary to the claim that a length
mismatch raises `InvalidChromosomeError`; the result 31 even lies outside
`[x_min, x_max] = [0, 15]`. -/
theorem decode_wrong_length_counterexample :
    BinaryEncoding.decode ⟨4, 0, 15⟩ [1, 1, 1, 1, 1] = some 31 := by
  have h : turn_to_bits [1, 1, 1, 1, 1] = [1, 1, 1, 1, 1] := by
    simp [turn_to_bits, symbolDigits]
  simp [BinaryEncoding.decode, h, int_base2, bitsToNat]
  norm_num

/-- C7 (amended): `decode` performs no validation of its own and
`InvalidChromosomeError` does not exist in the source.  For a configured
length of at least 1, any nonempty 0/1 chromosome decodes successfully
regardless of its own length; a symbol whose decimal digits are not all 0/1
(such as 2) makes Python's `int(bits, 2)` raise a plain `ValueError`; a
symbol such as 10, whose decimal digits are all 0/1, is silently accepted
and decoded as two bits; and a length-0 configuration always fails with
`ZeroDivisionError` instead. -/
theorem decode_no_validation_spec (e : BinaryEncoding) (g : GrayEncoding)
    (c : List ℕ) (hne : c ≠ []) (hbits : ∀ b ∈ c, b = 0 ∨ b = 1)
    (hLe : 1 ≤ e.length) (hLg : 1 ≤ g.length) :
    ((BinaryEncoding.decode e c).isSome = true) ∧
    ((GrayEncoding.decode g c).isSome = true) ∧
    (∀ (e2 : BinaryEncoding) (c2 : List ℕ), 2 ∈ c2 →
      BinaryEncoding.decode e2 c2 = none) ∧
    (∀ (g2 : GrayEncoding) (xs : List ℕ), GrayEncoding.decode g2 (2 :: xs) = none) ∧
    (BinaryEncoding.decode ⟨2, 0, 3⟩ [10] = some 2) ∧
    (∀ (e2 : BinaryEncoding) (c2 : List ℕ), e2.length = 0 →
      BinaryEncoding.decode e2 c2 = none) := by
  refine ⟨?_, ?_, ?_, ?_, ?_, ?_⟩
  · rw [binary_decode_eq e hne hbits (by omega)]
    rfl
  · have hgne : gray_to_binary c ≠ [] := by
      intro h
      have := gray_to_binary_length c
      rw [h] at this
      simp at this
      exact hne (List.length_eq_zero.mp this.symm)
    rw [gray_decode_eq_binary, binary_decode_eq _ hgne (gray_to_binary_bits hbits)
      (show g.length ≠ 0 by omega)]
    rfl
  · intro e2 c2 h2
    rw [BinaryEncoding.decode, int_base2_turn_none_of_two h2]
  · intro g2 xs
    rw [GrayEncoding.decode, int_base2_turn_none_of_two
      (show 2 ∈ gray_to_binary (2 :: xs) from List.mem_cons_self 2 _)]
  · have h : turn_to_bits [10] = [1, 0] := by
      simp [turn_to_bits, symbolDigits]
    simp [BinaryEncoding.decode, h, int_base2, bitsToNat]
    norm_num
  · intro e2 c2 h0
    unfold BinaryEncoding.decode
    split
    · rfl
    · rw [if_pos h0]

/-- Witness for C7 (amended) at `length = 1` encodings and chromosome `[1]`. -/
theorem decode_no_validation_spec_witness :
    (([1] : List ℕ) ≠ []) ∧ (∀ b ∈ ([1] : List ℕ), b = 0 ∨ b = 1) ∧
    (1 ≤ (1 : ℕ)) ∧ (1 ≤ (1 : ℕ)) ∧
    (((BinaryEncoding.decode ⟨1, 0, 1⟩ [1]).isSome = true) ∧
    ((GrayEncoding.decode ⟨1, 0, 1⟩ [1]).isSome = true) ∧
    (∀ (e2 : BinaryEncoding) (c2 : List ℕ), 2 ∈ c2 →
      BinaryEncoding.decode e2 c2 = none) ∧
    (∀ (g2 : GrayEncoding) (xs : List ℕ), GrayEncoding.decode g2 (2 :: xs) = none) ∧
    (BinaryEncoding.decode ⟨2, 0, 3⟩ [10] = some 2) ∧
    (∀ (e2 : BinaryEncoding) (c2 : List ℕ), e2.length = 0 →
      BinaryEncoding.decode e2 c2 = none)) :=
  ⟨by simp, by decide, by norm_num, by norm_num,
    decode_no_validation_spec ⟨1, 0, 1⟩ ⟨1, 0, 1⟩ [1] (by simp) (by decide) (by norm_num)
      (by norm_num)⟩

/-- C8 (with `Individual.clone` modelled from the spec, since the source's
`Individual` class is an empty stub): `clone` allocates a fresh cell holding
a copy of the original chromosome, mutating the clone's cell leaves the
original cell unchanged, and every individual returned by either `select` has
a fresh address distinct from every other returned individual's and from
every input individual's, even when the same index is drawn repeatedly. -/
theorem clone_independence_spec (store : Store) (ind : Individual)
    (hind : ind.addr < store.length) (individuals : List Individual)
    (fitness : List ℚ) (gamma : ℚ) (draws : ℕ → ℕ) :
    ((ind.clone store).1.addr ≠ ind.addr) ∧
    ((ind.clone store).2.getD (ind.clone store).1.addr [] = store.getD ind.addr []) ∧
    (∀ i v, (setBit (ind.clone store).2 (ind.clone store).1.addr i v).getD ind.addr [] =
      store.getD ind.addr []) ∧
    (∀ res s2, RouletteSelection.select individuals fitness draws store =
        Except.ok (res, s2) →
      res.Pairwise (fun a b => a.addr ≠ b.addr) ∧
      (∀ r ∈ res, store.length ≤ r.addr) ∧
      (∀ r ∈ res, ∀ i2 ∈ individuals, i2.addr < store.length → r.addr ≠ i2.addr)) ∧
    (∀ res s2, ThresholdSelection.select gamma individuals fitness draws store =
        Except.ok (res, s2) →
      res.Pairwise (fun a b => a.addr ≠ b.addr) ∧
      (∀ r ∈ res, store.length ≤ r.addr) ∧
      (∀ r ∈ res, ∀ i2 ∈ individuals, i2.addr < store.length → r.addr ≠ i2.addr)) := by
  refine ⟨?_, ?_, ?_, ?_, ?_⟩
  · show store.length ≠ ind.addr
    omega
  · exact getD_append_length store (store.getD ind.addr [])
  · intro i v
    show (setBit (store ++ [store.getD ind.addr []]) store.length i v).getD ind.addr [] =
      store.getD ind.addr []
    rw [setBit_other (show store.length ≠ ind.addr by omega)]
    exact getD_append_lt store _ hind
  · intro res s2 h
    obtain ⟨idx, hres⟩ := roulette_select_ok_inv h
    have hres1 : res = (cloneAll individuals idx store).1 := congrArg Prod.fst hres
    subst hres1
    refine ⟨cloneAll_pairwise individuals idx store, cloneAll_fresh individuals idx store, ?_⟩
    intro r hr i2 _ hlt
    have := cloneAll_fresh individuals idx store r hr
    omega
  · intro res s2 h
    obtain ⟨idx, hres⟩ := threshold_select_ok_inv h
    have hres1 : res = (cloneAll individuals idx store).1 := congrArg Prod.fst hres
    subst hres1
    refine ⟨cloneAll_pairwise individuals idx store, cloneAll_fresh individuals idx store, ?_⟩
    intro r hr i2 _ hlt
    have := cloneAll_fresh individuals idx store r hr
    omega

/-- Witness for C8 at a two-cell store, the first individual, population
`[⟨0⟩, ⟨1⟩]`, fitness `[1, 2]`, `gamma = 100`, and an oracle always
answering 0. -/
theorem clone_independence_spec_witness :
    ((Individual.addr ⟨0⟩ < ([[0], [1]] : Store).length)) ∧
    (((Individual.clone ⟨0⟩ [[0], [1]]).1.addr ≠ Individual.addr ⟨0⟩) ∧
    ((Individual.clone ⟨0⟩ [[0], [1]]).2.getD (Individual.clone ⟨0⟩ [[0], [1]]).1.addr [] =
      ([[0], [1]] : Store).getD (Individual.addr ⟨0⟩) []) ∧
    (∀ i v, (setBit (Individual.clone ⟨0⟩ [[0], [1]]).2
        (Individual.clone ⟨0⟩ [[0], [1]]).1.addr i v).getD (Individual.addr ⟨0⟩) [] =
      ([[0], [1]] : Store).getD (Individual.addr ⟨0⟩) []) ∧
    (∀ res s2, RouletteSelection.select [⟨0⟩, ⟨1⟩] [1, 2] (fun _ => 0) [[0], [1]] =
        Except.ok (res, s2) →
      res.Pairwise (fun a b => a.addr ≠ b.addr) ∧
      (∀ r ∈ res, ([[0], [1]] : Store).length ≤ r.addr) ∧
      (∀ r ∈ res, ∀ i2 ∈ ([⟨0⟩, ⟨1⟩] : List Individual),
        i2.addr < ([[0], [1]] : Store).length → r.addr ≠ i2.addr)) ∧
    (∀ res s2, ThresholdSelection.select 100 [⟨0⟩, ⟨1⟩] [1, 2] (fun _ => 0) [[0], [1]] =
        Except.ok (res, s2) →
      res.Pairwise (fun a b => a.addr ≠ b.addr) ∧
      (∀ r ∈ res, ([[0], [1]] : Store).length ≤ r.addr) ∧
      (∀ r ∈ res, ∀ i2 ∈ ([⟨0⟩, ⟨1⟩] : List Individual),
        i2.addr < ([[0], [1]] : Store).length → r.addr ≠ i2.addr))) :=
  ⟨by norm_num,
    clone_independence_spec [[0], [1]] ⟨0⟩ (by norm_num) [⟨0⟩, ⟨1⟩] [1, 2] 100
      (fun _ => 0)⟩

end GeneticAlgo
